import Mathlib

/-!
Shallow embedding of the RFX-Agents link-checker and multi-agent orchestration
(src/helper/link_checker.py and src/helper/agents.py), together with theorems
settling the specification claims about them.

Python strings are modelled as `String` / `List Char`; the Python string
operations used by the source (`strip`, `split`, `startswith`, `replace`,
`lower`, `in`, `join`, slicing before a separator) are defined below as
executable functions on `List Char`.
-/

/-- The character list of a string literal. -/
def lit (s : String) : List Char := s.data

/-- The apostrophe character (U+0027), used inside some source string literals. -/
def apos : Char := Char.ofNat 39

/-- Python `str.strip()` whitespace set (ASCII part, the only part the
    source can encounter in its own sentinel and verdict strings). -/
def isPySpace (c : Char) : Bool :=
  c = ' ' || c = '\t' || c = '\n' || c = '\r' || c = Char.ofNat 11 || c = Char.ofNat 12

/-- Python `str.lower()` on one character (ASCII letters, the only cased
    characters in any string the source compares after lowering; other
    characters are unchanged). -/
def lowerC (c : Char) : Char :=
  if 'A' ≤ c ∧ c ≤ 'Z' then Char.ofNat (c.toNat + 32) else c

/-- Python `str.lower()`. -/
def lowerL (s : List Char) : List Char := s.map lowerC

/-- Python `str.startswith(pat)`. -/
def startsWithL : List Char → List Char → Bool
  | [], _ => true
  | _ :: _, [] => false
  | p :: ps, c :: cs => p == c && startsWithL ps cs

/-- Python `pat in s` (substring test). -/
def containsSub (pat : List Char) : List Char → Bool
  | [] => startsWithL pat []
  | c :: rest => startsWithL pat (c :: rest) || containsSub pat rest

/-- Python `s.split(sep)` for a one-character separator `sep`:
    every occurrence splits, empty pieces included, `n` separators give
    `n+1` pieces. -/
def splitOnChar (c : Char) : List Char → List (List Char)
  | [] => [[]]
  | x :: rest =>
    if x = c then [] :: splitOnChar c rest
    else
      match splitOnChar c rest with
      | [] => [[x]]
      | h :: t => (x :: h) :: t

/-- Python `str.lstrip()`. -/
def lstripL (s : List Char) : List Char := s.dropWhile isPySpace

/-- Python `str.rstrip()`. -/
def rstripL (s : List Char) : List Char := (s.reverse.dropWhile isPySpace).reverse

/-- Python `str.strip()`. -/
def stripL (s : List Char) : List Char := rstripL (lstripL s)

/-- Python `s.replace(pat, rep)`: replaces every non-overlapping occurrence
    of `pat`, scanning left to right.  (All call sites in the source use a
    nonempty `pat`.)  `fuel` makes the recursion structural; it only ever
    decreases more slowly than the input, so `replaceAll` below never runs
    out. -/
def replaceAllFuel (pat rep : List Char) : Nat → List Char → List Char
  | 0, s => s
  | _ + 1, [] => []
  | fuel + 1, c :: rest =>
    if pat ≠ [] ∧ startsWithL pat (c :: rest) = true then
      rep ++ replaceAllFuel pat rep fuel ((c :: rest).drop pat.length)
    else
      c :: replaceAllFuel pat rep fuel rest

def replaceAll (pat rep : List Char) (s : List Char) : List Char :=
  replaceAllFuel pat rep s.length s

/-- Python `s.split(sep, 1)[0]`: the prefix of `s` before the first
    occurrence of `sep` (the whole of `s` when `sep` does not occur). -/
def takeBefore (sep : List Char) : List Char → List Char
  | [] => []
  | c :: rest =>
    if startsWithL sep (c :: rest) then [] else c :: takeBefore sep rest

/- ------------------------------------------------------------------ -/
/- src/helper/link_checker.py : extract_urls                          -/
/- ------------------------------------------------------------------ -/

/-- The negated character class of the source regex
    `https?://[^\s\)\]\"\'\>]+`: a character the URL body may contain
    (not whitespace and none of `)`, `]`, `"`, `'`, `>`). -/
def allowedChar (c : Char) : Bool :=
  !(isPySpace c || c = ')' || c = ']' || c = '"' || c = apos || c = '>')

/-- One attempt of the regex `https?://[^\s\)\]\"\'\>]+` at the current
    position: the scheme literal must match and at least one allowed
    character must follow; the match is maximal (greedy `+`).  Returns the
    match and the remaining input. -/
def tryMatchUrl (s : List Char) : Option (List Char × List Char) :=
  if startsWithL (lit "https://") s then
    if (s.drop 8).takeWhile allowedChar = [] then none
    else some (lit "https://" ++ (s.drop 8).takeWhile allowedChar, (s.drop 8).dropWhile allowedChar)
  else if startsWithL (lit "http://") s then
    if (s.drop 7).takeWhile allowedChar = [] then none
    else some (lit "http://" ++ (s.drop 7).takeWhile allowedChar, (s.drop 7).dropWhile allowedChar)
  else none

theorem startsWithL_iff (p s : List Char) :
    startsWithL p s = true ↔ ∃ r, s = p ++ r := by
  induction p generalizing s with
  | nil => simp [startsWithL]
  | cons c cs ih =>
    cases s with
    | nil =>
      simp only [startsWithL, List.cons_append]
      constructor
      · intro h; cases h
      · rintro ⟨r, h⟩; cases h
    | cons x xs =>
      simp only [startsWithL, Bool.and_eq_true, beq_iff_eq, ih, List.cons_append]
      constructor
      · rintro ⟨rfl, r, rfl⟩; exact ⟨r, rfl⟩
      · rintro ⟨r, h⟩
        injection h with h1 h2
        exact ⟨h1.symm, r, h2⟩

theorem tryMatchUrl_eq (s m r : List Char) (h : tryMatchUrl s = some (m, r)) :
    s = m ++ r ∧
      ∃ run, (m = lit "http://" ++ run ∨ m = lit "https://" ++ run) ∧
        run ≠ [] ∧ ∀ c ∈ run, allowedChar c = true := by
  unfold tryMatchUrl at h
  split at h
  next hpre =>
    split at h
    next => cases h
    next hrun =>
      injection h with h'
      injection h' with hm hr
      obtain ⟨rest, hrest⟩ := (startsWithL_iff _ _).mp hpre
      subst hrest
      have hdrop : (lit "https://" ++ rest).drop 8 = rest := by
        simp [lit]
      rw [hdrop] at hm hr
      constructor
      · rw [← hm, ← hr]
        have : rest.takeWhile allowedChar ++ rest.dropWhile allowedChar = rest :=
          List.takeWhile_append_dropWhile _ _
        rw [List.append_assoc, this]
      · refine ⟨rest.takeWhile allowedChar, Or.inr hm.symm, hrun, ?_⟩
        intro c hc
        exact List.mem_takeWhile_imp hc
  next hpre =>
    split at h
    next hpre2 =>
      split at h
      next => cases h
      next hrun =>
        injection h with h'
        injection h' with hm hr
        obtain ⟨rest, hrest⟩ := (startsWithL_iff _ _).mp hpre2
        subst hrest
        have hdrop : (lit "http://" ++ rest).drop 7 = rest := by
          simp [lit]
        rw [hdrop] at hm hr
        constructor
        · rw [← hm, ← hr]
          have : rest.takeWhile allowedChar ++ rest.dropWhile allowedChar = rest :=
            List.takeWhile_append_dropWhile _ _
          rw [List.append_assoc, this]
        · refine ⟨rest.takeWhile allowedChar, Or.inl hm.symm, hrun, ?_⟩
          intro c hc
          exact List.mem_takeWhile_imp hc
    next => cases h

theorem tryMatchUrl_shrink (s m r : List Char) (h : tryMatchUrl s = some (m, r)) :
    r.length < s.length := by
  obtain ⟨hs, run, hm, -, -⟩ := tryMatchUrl_eq s m r h
  have hmne : m ≠ [] := by
    rcases hm with hm | hm <;> subst hm <;> simp [lit]
  have : 0 < m.length := List.length_pos.mpr hmne
  subst hs
  simp only [List.length_append]
  omega

/-- `re.findall(r'https?://[^\s\)\]\"\'\>]+', text)`: scan left to right,
    emitting maximal non-overlapping matches (on a failed attempt the scan
    advances one character).  `fuel` makes the recursion structural; every
    step consumes at least one input character, so starting it at the input
    length (`findallUrls`) never exhausts it. -/
def findallAux : Nat → List Char → List (List Char)
  | 0, _ => []
  | _ + 1, [] => []
  | fuel + 1, c :: rest =>
    match tryMatchUrl (c :: rest) with
    | some (m, r) => m :: findallAux fuel r
    | none => findallAux fuel rest

def findallUrls (s : List Char) : List (List Char) := findallAux s.length s

/-- `LinkCheckerPlugin.extract_urls` (src/helper/link_checker.py, lines 17-30):
    the regex matches, newline-joined, or the no-URLs sentinel. -/
def extract_urls (text : String) : String :=
  if findallUrls text.data = [] then "No URLs found in the text."
  else String.mk (List.intercalate (lit "\n") (findallUrls text.data))

/- ------------------------------------------------------------------ -/
/- src/helper/link_checker.py : validate_urls                         -/
/- ------------------------------------------------------------------ -/

/-- Python `urllib.parse` scheme characters. -/
def schemeCharsL : List Char :=
  lit "abcdefghijklmnopqrstuvwxyzABCDEFGHIJKLMNOPQRSTUVWXYZ0123456789+-."

def isAsciiAlpha (c : Char) : Bool :=
  ('a' ≤ c && c ≤ 'z') || ('A' ≤ c && c ≤ 'Z')

/-- `urllib.parse.urlparse` scheme splitting: if the text before the first
    `:` is a nonempty letter-led run of scheme characters, it is the scheme
    and the remainder follows the colon; otherwise the scheme is empty. -/
def splitScheme (u : List Char) : List Char × List Char :=
  match u.findIdx? (fun c => c = ':') with
  | some i =>
    if 0 < i && (u.take i).all (fun c => schemeCharsL.contains c) &&
        isAsciiAlpha (u.headD ' ') then
      (u.take i, u.drop (i + 1))
    else ([], u)
  | none => ([], u)

/-- `urllib.parse.urlparse` netloc: present only after a leading `//` of the
    post-scheme remainder, up to the first `/`, `?` or `#`. -/
def netlocOf (rest : List Char) : List Char :=
  if startsWithL (lit "//") rest then
    (rest.drop 2).takeWhile (fun c => !(([ '/', '?', '#'] : List Char).contains c))
  else []

/-- `parsed_url.scheme and parsed_url.netloc` are both nonempty
    (lines 77-78 of src/helper/link_checker.py; `urlparse` does not raise
    on ordinary strings, so the `except` arm at line 81 is not modelled). -/
def parseOk (u : List Char) : Bool :=
  !((splitScheme u).1.isEmpty) && !((netlocOf (splitScheme u).2).isEmpty)

/-- Per-URL outcome of `_check_url` as consumed by `validate_urls`
    (lines 91-97): a success with a status code, a failure with a message,
    or an exception delivered as a value by
    `asyncio.gather(..., return_exceptions=True)`. -/
inductive CheckOutcome where
  | valid (code : Nat)
  | invalid (msg : String)
  | exn (e : String)
deriving DecidableEq

/-- Formatting of one result line (lines 92-97). -/
def formatCheck (u : List Char) : CheckOutcome → List Char
  | .valid code => lit "VALID: " ++ u ++ lit " - Status " ++ (toString code).data
  | .invalid msg => lit "INVALID: " ++ u ++ lit " - " ++ msg.data
  | .exn e => lit "INVALID: " ++ u ++ lit " - " ++ e.data

/-- `LinkCheckerPlugin.validate_urls` (src/helper/link_checker.py,
    lines 32-99), with the per-URL network check abstracted as the oracle
    `check`.  The pre-loop (lines 69-86) records a `Malformed URL` line for
    each unparseable URL and creates a task for every other URL; all the
    malformed lines are appended to `results` before the gather loop
    (lines 91-97) appends one line per task result, pairing
    `zip(url_list, check_results)` — the unfiltered `url_list` against the
    results of the tasked URLs only. -/
def validate_urls (check : List Char → CheckOutcome) (urls : String) : String :=
  if urls = "" ∨ urls = "No URLs found in the text." then "No URLs to validate."
  else
    let url_list := (splitOnChar '\n' (stripL urls.data)).filter (fun u => !(stripL u).isEmpty)
    if url_list = [] then "No valid URLs to check."
    else
      let malformed := ((url_list.map stripL).filter (fun u => !parseOk u)).map
        (fun u => lit "INVALID: " ++ u ++ lit " - Malformed URL")
      let tasks := (url_list.map stripL).filter parseOk
      let check_results := tasks.map check
      let zipped := (url_list.zip check_results).map (fun p => formatCheck p.1 p.2)
      String.mk (List.intercalate (lit "\n") (malformed ++ zipped))

/- ------------------------------------------------------------------ -/
/- src/helper/link_checker.py : _check_url                            -/
/- ------------------------------------------------------------------ -/

structure HttpResponse where
  status : Nat
  contentType : String
  body : String
  finalUrl : String

/-- What the initial HEAD request produced: a response, or an
    `aiohttp.ClientError` (the raised `ClientResponseError` for statuses
    404/405/403 lands in the same `except` arm, line 153). -/
inductive HeadOutcome where
  | resp (r : HttpResponse)
  | clientError

/-- The result dictionary of `_check_url`. -/
structure CheckRes where
  success : Bool
  status_code : Option Nat
  message : Option String
  final_url : Option String
deriving DecidableEq

def soft404msg : String :=
  "Soft 404 detected: Page appears to be an error page despite 200 status"

/-- Keywords of the `(?:404|not found|error|page does not exist)` group. -/
def errKeywords : List (List Char) :=
  [lit "404", lit "not found", lit "error", lit "page does not exist"]

/-- The `[^<]*(?:KW)[^<]*CLOSE` tail of the title/heading patterns, applied
    just after an opening tag on lowercased input: the run of non-`<`
    characters must contain a keyword and be followed immediately by the
    closing tag. -/
def tagBodyMatch (close : List Char) (s : List Char) : Bool :=
  startsWithL close (s.dropWhile (fun c => c != '<')) &&
    errKeywords.any (fun k => containsSub k (s.takeWhile (fun c => c != '<')))

/-- `re.search` for `OPEN[^<]*(?:KW)[^<]*CLOSE` on lowercased input. -/
def searchTagPattern (openTag close : List Char) : List Char → Bool
  | [] => false
  | c :: rest =>
    (startsWithL openTag (c :: rest) && tagBodyMatch close ((c :: rest).drop openTag.length))
      || searchTagPattern openTag close rest

/-- `re.search` for `<h2[^>]*>[^<]*(?:KW)[^<]*</h2>` on lowercased input. -/
def searchH2Pattern : List Char → Bool
  | [] => false
  | c :: rest =>
    (startsWithL (lit "<h2") (c :: rest) &&
      (match ((c :: rest).drop 3).dropWhile (fun d => d != '>') with
       | [] => false
       | _ :: t2 => tagBodyMatch (lit "</h2>") t2))
      || searchH2Pattern rest

/-- The fixed soft-error-page pattern bank (lines 173-186), each searched
    with `re.IGNORECASE` (modelled by lowercasing the content and writing
    the patterns lowercased). -/
def anyErrorPattern (content : List Char) : Bool :=
  let lc := lowerL content
  containsSub (lit "404 - page not found") lc ||
  searchTagPattern (lit "<title>") (lit "</title>") lc ||
  searchTagPattern (lit "<h1>") (lit "</h1>") lc ||
  searchH2Pattern lc ||
  containsSub (lit "sorry, the page you requested cannot be found") lc ||
  containsSub (lit "the page you" ++ [apos] ++ lit "re looking for isn" ++ [apos] ++
    lit "t available") lc ||
  containsSub (lit "the resource you are looking for has been removed") lc ||
  containsSub (lit "404 not found") lc ||
  containsSub (lit "page not found") lc ||
  containsSub (lit "the page cannot be found") lc ||
  containsSub (lit "this page does not exist") lc ||
  containsSub (lit "we can" ++ [apos] ++ lit "t find the page you" ++ [apos] ++
    lit "re looking for") lc

/-- The escalated GET branch of `_check_url` (lines 155-208): a 2xx/3xx
    response whose `Content-Type` contains `text/html` has its body checked
    against the soft-error bank; a match downgrades the result to a failure
    with a synthesized 404. -/
def checkUrlGet (r : HttpResponse) : CheckRes :=
  if 200 ≤ r.status ∧ r.status < 400 then
    if containsSub (lit "text/html") (lowerL r.contentType.data) ∧ anyErrorPattern r.body.data then
      ⟨false, some 404, some soft404msg, none⟩
    else ⟨true, some r.status, none, some r.finalUrl⟩
  else ⟨false, some r.status, some ("HTTP Error: " ++ toString r.status), none⟩

/-- `_check_url` (src/helper/link_checker.py, lines 101-208) as a function
    of the HEAD outcome and the response an escalated GET would produce.
    (The connection-error/timeout handlers at lines 210-230 are outside all
    claims and not modelled.) -/
def checkUrl (head : HeadOutcome) (get : HttpResponse) : CheckRes :=
  match head with
  | .resp r =>
    if 200 ≤ r.status ∧ r.status < 400 then ⟨true, some r.status, none, some r.finalUrl⟩
    else if r.status = 404 ∨ r.status = 405 ∨ r.status = 403 then checkUrlGet get
    else ⟨false, some r.status, some ("HTTP Error: " ++ toString r.status), none⟩
  | .clientError => checkUrlGet get

/- ------------------------------------------------------------------ -/
/- src/helper/link_checker.py : summarize_validation_results          -/
/- ------------------------------------------------------------------ -/

/-- Lines 254-258: the URL reported for an `INVALID:` line — the part
    before the first `" - "`, with every `"INVALID:"` occurrence removed
    and surrounding whitespace stripped. -/
def urlOfLine (l : List Char) : List Char :=
  stripL (replaceAll (lit "INVALID:") [] (takeBefore (lit " - ") l))

/-- Lines 249-258: the lines of the stripped input that start with
    `INVALID:`. -/
def invalidLinesOf (v : String) : List (List Char) :=
  (splitOnChar '\n' (stripL v.data)).filter (fun l => startsWithL (lit "INVALID:") l)

/-- `LinkCheckerPlugin.summarize_validation_results`
    (src/helper/link_checker.py, lines 232-263): the sentinel inputs and the
    empty string summarize to `LINKS CORRECT`; otherwise `invalid_links` is
    the per-`INVALID:`-line URL list and the output is either
    `LINKS CORRECT` (no invalid lines) or one `LINK INCORRECT - <url>` line
    per invalid line. -/
def summarize_validation_results (validation_results : String) : String :=
  if validation_results = "" ∨ validation_results = "No URLs to validate." ∨
      validation_results = "No valid URLs to check." then "LINKS CORRECT"
  else if (invalidLinesOf validation_results).map urlOfLine = [] then "LINKS CORRECT"
  else String.mk (List.intercalate (lit "\n")
    (((invalidLinesOf validation_results).map urlOfLine).map
      (fun u => lit "LINK INCORRECT - " ++ u)))

/- ------------------------------------------------------------------ -/
/- src/helper/agents.py : MultiAgent.ask_question                     -/
/- ------------------------------------------------------------------ -/

structure LogEntry where
  agent : String
  content : String
deriving DecidableEq

structure Exchange where
  question : String
  answer : String
deriving DecidableEq

/-- The backward scan of lines 355-358: the content of the most recent
    `QuestionAnswererAgent` entry of the log, if any. -/
def lastQA (log : List LogEntry) : Option String :=
  (log.reverse.find? (fun m => m.agent == "QuestionAnswererAgent")).map (fun m => m.content)

/-- One iteration of the `async for` body (lines 329-358), after the
    empty-name guard: append the message to the interaction log, remember a
    `QuestionAnswererAgent` message as the tentative final answer, and on a
    `ManagerAgent` message containing `"APPROVE"` in its *lowercased* text
    re-select the final answer by the backward scan. -/
def processTurn (st : List LogEntry × String) (m : LogEntry) : List LogEntry × String :=
  if m.agent = "ManagerAgent" ∧ containsSub (lit "APPROVE") (lowerL m.content.data) = true then
    (st.1 ++ [m], (lastQA (st.1 ++ [m])).getD
      (if m.agent = "QuestionAnswererAgent" then m.content else st.2))
  else
    (st.1 ++ [m], if m.agent = "QuestionAnswererAgent" then m.content else st.2)

/-- The guard `if not content or not content.name: continue` (line 330):
    only stream items with a nonempty agent name are processed. -/
def keepNamed (stream : List (Option String × String)) : List LogEntry :=
  stream.filterMap (fun p =>
    match p.1 with
    | none => none
    | some n => if n = "" then none else some ⟨n, p.2⟩)

/-- Accumulated interaction log and final answer after consuming the whole
    message stream produced by `chat.invoke()`. -/
def runLog (stream : List (Option String × String)) : List LogEntry × String :=
  (keepNamed stream).foldl processTurn ([], "")

def finalAnswerOf (stream : List (Option String × String)) : String := (runLog stream).2

/-- The value returned by `ask_question` plus the state of
    `self.conversation_history` after the call. -/
structure RunResult where
  inner_monologue : List LogEntry
  final_answer : String
  history : List Exchange
deriving DecidableEq

/-- Lines 360-365: append the exchange, then keep only the last 5 entries
    (Python `history[-5:]`). -/
def updateHistory (h : List Exchange) (q a : String) : List Exchange :=
  if (h ++ [(⟨q, a⟩ : Exchange)]).length > 5 then
    (h ++ [(⟨q, a⟩ : Exchange)]).drop ((h ++ [(⟨q, a⟩ : Exchange)]).length - 5)
  else h ++ [(⟨q, a⟩ : Exchange)]

/-- `MultiAgent.ask_question` (src/helper/agents.py, lines 307-377).
    `stream` is the message sequence `chat.invoke()` yields (agent name as
    produced — possibly absent — and content); `exc` is `some e` when an
    exception with text `e` escapes the turn loop, in which case the
    `except` arm (lines 372-377) returns a single synthetic `System` entry
    and an error-flagged answer, leaving the history untouched. -/
def ask_question (history : List Exchange) (question : String)
    (stream : List (Option String × String)) (exc : Option String) : RunResult :=
  match exc with
  | some e => ⟨[⟨"System", "Error: " ++ e⟩], "Error occurred: " ++ e, history⟩
  | none =>
    let st := runLog stream
    ⟨st.1, st.2, updateHistory history question st.2⟩

/-- Modelled from the spec: the group-chat turn loop itself lives in the
    external semantic_kernel `AgentGroupChat` (configured with
    `maximum_iterations=10` in `create_agents_and_chat`,
    src/helper/agents.py lines 286-303) and its code is not part of this
    repository.  Per spec sections 4.7-4.8 the orchestrator repeats: turn
    selector picks an agent, the agent produces one message, the
    termination gate is evaluated; the run stops when the gate fires or
    when the iteration budget `fuel` is exhausted. -/
def runChat (select : List LogEntry → String) (respond : String → List LogEntry → String)
    (gate : LogEntry → Bool) : Nat → List LogEntry → List LogEntry
  | 0, log => log
  | fuel + 1, log =>
    if gate ⟨select log, respond (select log) log⟩ then
      log ++ [⟨select log, respond (select log) log⟩]
    else
      runChat select respond gate fuel (log ++ [⟨select log, respond (select log) log⟩])

/-- Modelled from the spec: one full `chat.invoke()` run with the
    configured iteration cap of 10. -/
def invokeChat (select : List LogEntry → String) (respond : String → List LogEntry → String)
    (gate : LogEntry → Bool) (init : List LogEntry) : List LogEntry :=
  runChat select respond gate 10 init

/- ------------------------------------------------------------------ -/
/- The URL grammar in the words of the spec (for claim C4)            -/
/- ------------------------------------------------------------------ -/

/-- A character allowed in a URL body by the *spec's* grammar words:
    "non-whitespace, non-bracket, non-quote". -/
def specUrlChar (c : Char) : Bool :=
  !(isPySpace c || c = '(' || c = ')' || c = '[' || c = ']' ||
    c = '<' || c = '>' || c = '"' || c = apos)

/-- A URI scheme token: a letter followed by scheme characters. -/
def validScheme : List Char → Bool
  | [] => false
  | c :: rest => isAsciiAlpha c && rest.all (fun d => schemeCharsL.contains d)

/-- Does a match of the spec's grammar `scheme://` + one-or-more allowed
    characters begin at the head of `s`? -/
def specUrlHere (s : List Char) : Bool :=
  (List.range (s.length + 1)).any (fun i =>
    validScheme (s.take i) && startsWithL (lit "://") (s.drop i) &&
      (match s.drop (i + 3) with
       | [] => false
       | c :: _ => specUrlChar c))

def tailsL : List Char → List (List Char)
  | [] => [[]]
  | c :: t => (c :: t) :: tailsL t

/-- The claim's reading of the spec grammar: the text contains a substring
    `scheme://` followed by at least one non-whitespace, non-bracket,
    non-quote character. -/
def specHasUrl (text : String) : Bool := (tailsL text.data).any specUrlHere

/- ------------------------------------------------------------------ -/
/- General lemmas about the string operations                         -/
/- ------------------------------------------------------------------ -/

theorem char_le_iff_toNat {a b : Char} : a ≤ b ↔ a.toNat ≤ b.toNat := Iff.rfl

theorem toNat_ofNat_valid {n : Nat} (h : n < 55296) : (Char.ofNat n).toNat = n := by
  have hv : n.isValidChar := Or.inl h
  rw [Char.ofNat, dif_pos hv]
  simp [Char.ofNatAux, Char.toNat, UInt32.toNat]

/-- Lowercasing never produces an uppercase `A`. -/
theorem lowerC_ne_A (c : Char) : lowerC c ≠ 'A' := by
  unfold lowerC
  split_ifs with h
  · intro he
    have h65 : 65 ≤ c.toNat := char_le_iff_toNat.mp h.1
    have h90 : c.toNat ≤ 90 := char_le_iff_toNat.mp h.2
    have hc := congrArg Char.toNat he
    rw [toNat_ofNat_valid (by omega)] at hc
    have hA : ('A' : Char).toNat = 65 := by decide
    omega
  · intro he
    exact h (by rw [he]; exact ⟨by decide, by decide⟩)

theorem containsSub_head_mem {c : Char} {p s : List Char}
    (h : containsSub (c :: p) s = true) : c ∈ s := by
  induction s with
  | nil => simp [containsSub, startsWithL] at h
  | cons x xs ih =>
    simp only [containsSub, Bool.or_eq_true] at h
    rcases h with h | h
    · obtain ⟨r, hr⟩ := (startsWithL_iff _ _).mp h
      rw [List.cons_append] at hr
      injection hr with h1 _
      exact h1 ▸ List.mem_cons_self x xs
    · exact List.mem_cons_of_mem _ (ih h)

/-- The approval check of src/helper/agents.py line 353 can never fire:
    the uppercase literal `"APPROVE"` is searched inside the *lowercased*
    message text, which contains no uppercase letter. -/
theorem approve_not_in_lower (s : List Char) :
    containsSub (lit "APPROVE") (lowerL s) = false := by
  by_contra h
  rw [Bool.not_eq_false] at h
  have hlit : lit "APPROVE" = 'A' :: lit "PPROVE" := by decide
  rw [hlit] at h
  obtain ⟨c, -, hc⟩ := List.mem_map.mp (containsSub_head_mem h)
  exact lowerC_ne_A c hc

theorem splitOnChar_ne_nil (c : Char) (s : List Char) : splitOnChar c s ≠ [] := by
  cases s with
  | nil => simp [splitOnChar]
  | cons x rest =>
    unfold splitOnChar
    split
    · simp
    · split <;> simp

theorem mem_splitOnChar_not_mem (c : Char) (s : List Char) :
    ∀ l ∈ splitOnChar c s, c ∉ l := by
  induction s with
  | nil =>
    intro l hl
    simp only [splitOnChar, List.mem_singleton] at hl
    subst hl; simp
  | cons x rest ih =>
    intro l hl
    unfold splitOnChar at hl
    by_cases hx : x = c
    · rw [if_pos hx] at hl
      rcases List.mem_cons.mp hl with rfl | hl
      · simp
      · exact ih l hl
    · rw [if_neg hx] at hl
      cases hsp : splitOnChar c rest with
      | nil => exact absurd hsp (splitOnChar_ne_nil c rest)
      | cons hh tt =>
        rw [hsp] at hl
        rcases List.mem_cons.mp hl with rfl | hl
        · intro hmem
          rcases List.mem_cons.mp hmem with h1 | h1
          · exact hx h1.symm
          · exact ih hh (hsp ▸ List.mem_cons_self hh tt) h1
        · exact ih l (hsp ▸ List.mem_cons_of_mem hh hl)

theorem splitOnChar_of_not_mem {c : Char} {s : List Char} (h : c ∉ s) :
    splitOnChar c s = [s] := by
  induction s with
  | nil => rfl
  | cons x rest ih =>
    have hx : ¬ x = c := by
      intro e; subst e; exact h (List.mem_cons_self x rest)
    have ihh := ih (fun hc => h (List.mem_cons_of_mem _ hc))
    unfold splitOnChar
    rw [if_neg hx, ihh]

theorem splitOnChar_append_sep {c : Char} {u : List Char} (hu : c ∉ u) (z : List Char) :
    splitOnChar c (u ++ c :: z) = u :: splitOnChar c z := by
  induction u with
  | nil =>
    simp only [List.nil_append]
    rw [splitOnChar, if_pos rfl]
  | cons x xs ih =>
    have hx : ¬ x = c := by
      intro e; subst e; exact hu (List.mem_cons_self x xs)
    have ihh := ih (fun hc => hu (List.mem_cons_of_mem _ hc))
    simp only [List.cons_append]
    rw [splitOnChar, if_neg hx, ihh]

theorem intercalate_two (sep a b : List Char) (t : List (List Char)) :
    List.intercalate sep (a :: b :: t) = a ++ sep ++ List.intercalate sep (b :: t) := by
  simp [List.intercalate]

theorem intercalate_one (sep a : List Char) : List.intercalate sep [a] = a := by
  simp [List.intercalate]

theorem splitOnChar_intercalate (c : Char) (L : List (List Char)) (hL : L ≠ [])
    (h : ∀ l ∈ L, c ∉ l) : splitOnChar c (List.intercalate [c] L) = L := by
  induction L with
  | nil => cases hL rfl
  | cons a t ih =>
    cases t with
    | nil =>
      rw [intercalate_one]
      exact splitOnChar_of_not_mem (h a (List.mem_cons_self a []))
    | cons b t2 =>
      rw [intercalate_two]
      have hre : a ++ [c] ++ List.intercalate [c] (b :: t2) =
          a ++ c :: List.intercalate [c] (b :: t2) := by simp
      rw [hre, splitOnChar_append_sep (h a (List.mem_cons_self a _)),
        ih (by simp) (fun l hl => h l (List.mem_cons_of_mem _ hl))]

/- ------------------------------------------------------------------ -/
/- Membership and strip lemmas                                        -/
/- ------------------------------------------------------------------ -/

theorem mem_of_mem_lstripL {x : Char} {s : List Char} (h : x ∈ lstripL s) : x ∈ s :=
  (List.dropWhile_sublist _).subset h

theorem mem_of_mem_rstripL {x : Char} {s : List Char} (h : x ∈ rstripL s) : x ∈ s := by
  unfold rstripL at h
  rw [List.mem_reverse] at h
  have h2 := (List.dropWhile_sublist _).subset h
  rwa [List.mem_reverse] at h2

theorem mem_of_mem_stripL {x : Char} {s : List Char} (h : x ∈ stripL s) : x ∈ s :=
  mem_of_mem_lstripL (mem_of_mem_rstripL h)

theorem mem_of_mem_takeBefore {sep : List Char} {x : Char} {l : List Char}
    (h : x ∈ takeBefore sep l) : x ∈ l := by
  induction l with
  | nil => simp [takeBefore] at h
  | cons c rest ih =>
    rw [takeBefore] at h
    split at h
    · simp at h
    · rcases List.mem_cons.mp h with rfl | h
      · exact List.mem_cons_self _ _
      · exact List.mem_cons_of_mem _ (ih h)

theorem mem_of_mem_replaceAllFuel {pat : List Char} {x : Char} :
    ∀ (fuel : Nat) (l : List Char), x ∈ replaceAllFuel pat [] fuel l → x ∈ l := by
  intro fuel
  induction fuel with
  | zero => intro l h; simpa [replaceAllFuel] using h
  | succ n ih =>
    intro l h
    cases l with
    | nil => simpa [replaceAllFuel] using h
    | cons c rest =>
      rw [replaceAllFuel] at h
      split at h
      · simp only [List.nil_append] at h
        exact List.mem_of_mem_drop (ih _ h)
      · rcases List.mem_cons.mp h with rfl | h
        · exact List.mem_cons_self _ _
        · exact List.mem_cons_of_mem _ (ih _ h)

theorem mem_of_mem_urlOfLine {x : Char} {l : List Char} (h : x ∈ urlOfLine l) : x ∈ l := by
  unfold urlOfLine replaceAll at h
  exact mem_of_mem_takeBefore (mem_of_mem_replaceAllFuel _ _ (mem_of_mem_stripL h))

theorem dropWhile_ne_nil_of_mem {p : Char → Bool} {l : List Char} {x : Char}
    (hx : x ∈ l) (hpx : p x = false) : l.dropWhile p ≠ [] := by
  intro h
  have := List.dropWhile_eq_nil_iff.mp h x hx
  rw [this] at hpx
  cases hpx

theorem rstripL_head (x : Char) (s : List Char) (hx : isPySpace x = false) :
    ∃ t, rstripL (x :: s) = x :: t := by
  unfold rstripL
  rw [List.reverse_cons, List.dropWhile_append]
  split
  · exact ⟨[], by simp [List.dropWhile_cons, hx]⟩
  · exact ⟨(s.reverse.dropWhile isPySpace).reverse, by simp⟩

theorem rstripL_append_of_head {a : List Char} {x : Char} {tb : List Char}
    (hx : isPySpace x = false) :
    rstripL (a ++ (x :: tb)) = a ++ rstripL (x :: tb) := by
  unfold rstripL
  rw [List.reverse_append, List.dropWhile_append]
  have hne : (x :: tb).reverse.dropWhile isPySpace ≠ [] :=
    dropWhile_ne_nil_of_mem (by simp) hx
  rw [if_neg (by simpa using hne)]
  simp

theorem lstripL_cons_of (x : Char) (s : List Char) (hx : isPySpace x = false) :
    lstripL (x :: s) = x :: s := by
  simp [lstripL, List.dropWhile_cons, hx]

theorem intercalate_concat {sep e : List Char} (L0 : List (List Char)) (h0 : L0 ≠ []) :
    List.intercalate sep (L0 ++ [e]) = List.intercalate sep L0 ++ sep ++ e := by
  induction L0 with
  | nil => cases h0 rfl
  | cons a t ih =>
    cases t with
    | nil =>
      rw [intercalate_one]
      simp only [List.nil_append, List.cons_append, intercalate_two, intercalate_one]
    | cons b t2 =>
      have hrec := ih (by simp)
      simp only [List.cons_append] at hrec ⊢
      rw [intercalate_two, hrec, intercalate_two]
      simp [List.append_assoc]

theorem intercalate_head_shape (sep : List Char) (a : List Char) (t : List (List Char)) :
    ∃ z, List.intercalate sep (a :: t) = a ++ z := by
  cases t with
  | nil => exact ⟨[], by simp [intercalate_one]⟩
  | cons b t2 =>
    exact ⟨sep ++ List.intercalate sep (b :: t2), by rw [intercalate_two]; simp [List.append_assoc]⟩

/-- Pieces of the stripped newline-join of a nonempty list of
    newline-free lines all starting with `L` again all start with `L`. -/
theorem pieces_of_strip_intercalate (L : List (List Char)) (hL : L ≠ [])
    (hfree : ∀ e ∈ L, '\n' ∉ e)
    (hhead : ∀ e ∈ L, ∃ t, e = 'L' :: t) :
    ∀ l ∈ splitOnChar '\n' (stripL (List.intercalate (lit "\n") L)), ∃ t, l = 'L' :: t := by
  have hnl : lit "\n" = ['\n'] := rfl
  have hLsp : isPySpace 'L' = false := by decide
  rcases List.eq_nil_or_concat L with rfl | ⟨L0, e, rfl⟩
  · cases hL rfl
  rw [List.concat_eq_append] at *
  obtain ⟨te, hte⟩ := hhead e (by simp)
  cases L0 with
  | nil =>
    simp only [List.nil_append, intercalate_one]
    subst hte
    rw [stripL, lstripL_cons_of _ _ hLsp]
    obtain ⟨t1, ht1⟩ := rstripL_head 'L' te hLsp
    rw [ht1]
    intro l hl
    have hfree' : '\n' ∉ ('L' :: t1) := by
      rw [← ht1]
      intro hmem
      exact hfree ('L' :: te) (by simp) (mem_of_mem_rstripL hmem)
    rw [splitOnChar_of_not_mem hfree'] at hl
    simp only [List.mem_singleton] at hl
    exact ⟨t1, hl⟩
  | cons a L0' =>
    obtain ⟨ta, hta⟩ := hhead a (by simp)
    rw [intercalate_concat (a :: L0') (by simp), hnl]
    subst hte
    rw [List.append_assoc, List.singleton_append,
      show ('\n' :: ('L' :: te)) = ('\n' :: 'L' :: te) from rfl]
    -- strip: lstrip is the identity (head is 'L'), rstrip eats only into the last line
    have hstrip : stripL (List.intercalate ['\n'] (a :: L0') ++ '\n' :: 'L' :: te) =
        List.intercalate ['\n'] (a :: L0') ++ '\n' :: rstripL ('L' :: te) := by
      rw [stripL]
      have hshape : ∃ z0, List.intercalate ['\n'] (a :: L0') ++ '\n' :: 'L' :: te =
          'L' :: z0 := by
        obtain ⟨z0, hz0⟩ := intercalate_head_shape ['\n'] a L0'
        subst hta
        exact ⟨ta ++ z0 ++ '\n' :: 'L' :: te, by rw [hz0]; simp⟩
      obtain ⟨z0, hz0⟩ := hshape
      rw [hz0, lstripL_cons_of _ _ hLsp, ← hz0]
      have := @rstripL_append_of_head
        (List.intercalate ['\n'] (a :: L0') ++ ['\n']) 'L' te hLsp
      simpa [List.append_assoc] using this
    rw [hstrip]
    obtain ⟨t1, ht1⟩ := rstripL_head 'L' te hLsp
    rw [ht1]
    have hjoin : List.intercalate ['\n'] (a :: L0') ++ '\n' :: 'L' :: t1 =
        List.intercalate ['\n'] ((a :: L0') ++ ['L' :: t1]) := by
      rw [intercalate_concat (a :: L0') (by simp)]
      simp
    rw [hjoin, splitOnChar_intercalate]
    · intro l hl
      rcases List.mem_append.mp hl with hl | hl
      · exact hhead l (List.mem_append.mpr (Or.inl hl))
      · simp only [List.mem_singleton] at hl
        exact ⟨t1, hl⟩
    · simp
    · intro l hl
      rcases List.mem_append.mp hl with hl | hl
      · exact hfree l (List.mem_append.mpr (Or.inl hl))
      · simp only [List.mem_singleton] at hl
        subst hl
        intro hmem
        rw [← ht1] at hmem
        exact hfree ('L' :: te) (by simp) (mem_of_mem_rstripL hmem)

/- ------------------------------------------------------------------ -/
/- Characterization of summarize_validation_results (claims C2, C5)   -/
/- ------------------------------------------------------------------ -/

theorem summarize_no_invalid (v : String) (h : invalidLinesOf v = []) :
    summarize_validation_results v = "LINKS CORRECT" := by
  unfold summarize_validation_results
  split
  · rfl
  · rw [h]
    rfl

theorem summarize_of_invalid (v : String) (h : (invalidLinesOf v).map urlOfLine ≠ []) :
    summarize_validation_results v = String.mk (List.intercalate (lit "\n")
      (((invalidLinesOf v).map urlOfLine).map (fun u => lit "LINK INCORRECT - " ++ u))) := by
  have hv : ¬(v = "" ∨ v = "No URLs to validate." ∨ v = "No valid URLs to check.") := by
    rintro (rfl | rfl | rfl) <;> exact h (by decide)
  unfold summarize_validation_results
  rw [if_neg hv, if_neg h]

theorem summarize_lines_free (v : String) :
    ∀ e ∈ ((invalidLinesOf v).map urlOfLine).map (fun u => lit "LINK INCORRECT - " ++ u),
      '\n' ∉ e := by
  intro e he
  obtain ⟨u, hu, rfl⟩ := List.mem_map.mp he
  obtain ⟨l0, hl0, rfl⟩ := List.mem_map.mp hu
  intro hmem
  rcases List.mem_append.mp hmem with hmem | hmem
  · exact absurd hmem (by decide)
  · exact mem_splitOnChar_not_mem _ _ l0 (List.mem_filter.mp hl0).1 (mem_of_mem_urlOfLine hmem)

/-- C5: for every input, zero `INVALID:` lines (the sentinels and the empty
    string included) summarize to exactly `LINKS CORRECT`; with k ≥ 1
    `INVALID:` lines the output consists of exactly one
    `LINK INCORRECT - <url>` line per `INVALID:` line, in order, the url
    being the pre-`" - "` part of the line with the `INVALID:` marker
    removed (and whitespace stripped), so in particular it has exactly k
    lines. -/
theorem c5_summarize_functional_spec (v : String) :
    (invalidLinesOf v = [] → summarize_validation_results v = "LINKS CORRECT") ∧
    (invalidLinesOf v ≠ [] →
      splitOnChar '\n' (summarize_validation_results v).data =
        (invalidLinesOf v).map (fun l => lit "LINK INCORRECT - " ++ urlOfLine l) ∧
      (splitOnChar '\n' (summarize_validation_results v).data).length =
        (invalidLinesOf v).length) := by
  constructor
  · exact summarize_no_invalid v
  · intro h
    have hmap : (invalidLinesOf v).map urlOfLine ≠ [] := by simpa using h
    have hpieces : splitOnChar '\n' (summarize_validation_results v).data =
        (invalidLinesOf v).map (fun l => lit "LINK INCORRECT - " ++ urlOfLine l) := by
      rw [summarize_of_invalid v hmap]
      have hnl : lit "\n" = ['\n'] := rfl
      have hsplit : splitOnChar '\n' (List.intercalate ['\n']
          (((invalidLinesOf v).map urlOfLine).map (fun u => lit "LINK INCORRECT - " ++ u))) =
          ((invalidLinesOf v).map urlOfLine).map (fun u => lit "LINK INCORRECT - " ++ u) :=
        splitOnChar_intercalate '\n' _ (by simpa using h) (summarize_lines_free v)
      rw [show (String.mk (List.intercalate (lit "\n")
          (((invalidLinesOf v).map urlOfLine).map (fun u => lit "LINK INCORRECT - " ++ u)))).data =
          List.intercalate (lit "\n")
          (((invalidLinesOf v).map urlOfLine).map (fun u => lit "LINK INCORRECT - " ++ u)) from rfl,
        hnl, hsplit, List.map_map]
      rfl
    exact ⟨hpieces, by rw [hpieces]; simp⟩

/-- C5 witness: a concrete input with one `INVALID:` line produces exactly
    one `LINK INCORRECT` line carrying that line's URL. -/
theorem c5_summarize_functional_spec_witness :
    splitOnChar '\n' (summarize_validation_results
      "VALID: http://y - Status 200\nINVALID: http://x - Malformed URL").data =
      [lit "LINK INCORRECT - http://x"] := by
  have h := (c5_summarize_functional_spec
    "VALID: http://y - Status 200\nINVALID: http://x - Malformed URL").2 (by decide)
  rw [h.1]
  decide

/-- C2 counterexample: the summarizer is not idempotent — on an input with
    an `INVALID:` line, its output (a `LINK INCORRECT - ...` report)
    re-summarizes to `LINKS CORRECT`, not to itself. -/
theorem c2_not_idempotent_counterexample :
    summarize_validation_results
        (summarize_validation_results "INVALID: http://x - Malformed URL") ≠
      summarize_validation_results "INVALID: http://x - Malformed URL" := by
  decide

/-- C2 (amended): a second application of the summarizer always yields
    `LINKS CORRECT`; hence the summarizer is idempotent exactly on the
    inputs whose one-pass summary is `LINKS CORRECT` (no `INVALID:` lines),
    and not idempotent on inputs with `INVALID:` lines. -/
theorem c2_double_summarize (s : String) :
    summarize_validation_results (summarize_validation_results s) = "LINKS CORRECT" := by
  by_cases h : (invalidLinesOf s).map urlOfLine = []
  · have h1 : summarize_validation_results s = "LINKS CORRECT" := by
      by_cases hs : s = "" ∨ s = "No URLs to validate." ∨ s = "No valid URLs to check."
      · unfold summarize_validation_results
        rw [if_pos hs]
      · unfold summarize_validation_results
        rw [if_neg hs, if_pos h]
    rw [h1]
    decide
  · rw [summarize_of_invalid s h]
    apply summarize_no_invalid
    unfold invalidLinesOf
    rw [List.filter_eq_nil_iff]
    intro l hl
    have hhead : ∀ e ∈ ((invalidLinesOf s).map urlOfLine).map
        (fun u => lit "LINK INCORRECT - " ++ u), ∃ t, e = 'L' :: t := by
      intro e he
      obtain ⟨u, hu, rfl⟩ := List.mem_map.mp he
      exact ⟨lit "INK INCORRECT - " ++ u, rfl⟩
    obtain ⟨t, rfl⟩ := pieces_of_strip_intercalate _ (by simpa using h)
      (summarize_lines_free s) hhead l hl
    intro hcontra
    have hfalse : startsWithL (lit "INVALID:") ('L' :: t) = false := rfl
    rw [hfalse] at hcontra
    cases hcontra

/- ------------------------------------------------------------------ -/
/- Characterization of extract_urls (claim C4)                        -/
/- ------------------------------------------------------------------ -/

/-- The text contains a substring matching the source regex: the literal
    `http://` or `https://` immediately followed by a nonempty run of
    allowed characters. -/
def hasUrlIn (s : List Char) : Prop :=
  ∃ pre scheme run post, s = pre ++ scheme ++ run ++ post ∧
    (scheme = lit "http://" ∨ scheme = lit "https://") ∧
    run ≠ [] ∧ ∀ c ∈ run, allowedChar c = true

theorem tryMatchUrl_some_http (rc : Char) (rt post : List Char)
    (hrc : allowedChar rc = true) :
    tryMatchUrl (lit "http://" ++ (rc :: (rt ++ post))) ≠ none := by
  have h1 : startsWithL (lit "https://") (lit "http://" ++ (rc :: (rt ++ post))) = false := rfl
  have h2 : startsWithL (lit "http://") (lit "http://" ++ (rc :: (rt ++ post))) = true :=
    (startsWithL_iff _ _).mpr ⟨_, rfl⟩
  have h3 : (lit "http://" ++ (rc :: (rt ++ post))).drop 7 = rc :: (rt ++ post) := by
    simp [lit]
  intro hnone
  unfold tryMatchUrl at hnone
  rw [h1, h2, h3] at hnone
  simp [List.takeWhile_cons_of_pos hrc] at hnone

theorem tryMatchUrl_some_https (rc : Char) (rt post : List Char)
    (hrc : allowedChar rc = true) :
    tryMatchUrl (lit "https://" ++ (rc :: (rt ++ post))) ≠ none := by
  have h2 : startsWithL (lit "https://") (lit "https://" ++ (rc :: (rt ++ post))) = true :=
    (startsWithL_iff _ _).mpr ⟨_, rfl⟩
  have h3 : (lit "https://" ++ (rc :: (rt ++ post))).drop 8 = rc :: (rt ++ post) := by
    simp [lit]
  intro hnone
  unfold tryMatchUrl at hnone
  rw [h2, h3] at hnone
  simp [List.takeWhile_cons_of_pos hrc] at hnone

theorem findallAux_ne_nil_of_hasUrl :
    ∀ (fuel : Nat) (s : List Char), s.length ≤ fuel → hasUrlIn s →
      findallAux fuel s ≠ [] := by
  intro fuel
  induction fuel with
  | zero =>
    intro s hlen hurl
    obtain ⟨pre, scheme, run, post, hs, hsch, hrun, -⟩ := hurl
    have hnil : s = [] := List.length_eq_zero.mp (Nat.le_zero.mp hlen)
    subst hnil
    have h0 := hs.symm
    simp only [List.append_eq_nil] at h0
    exact (hrun h0.1.2).elim
  | succ n ih =>
    intro s hlen hurl
    obtain ⟨pre, scheme, run, post, hs, hsch, hrun, hall⟩ := hurl
    cases s with
    | nil =>
      have h0 := hs.symm
      simp only [List.append_eq_nil] at h0
      exact (hrun h0.1.2).elim
    | cons c rest =>
      rw [findallAux]
      cases htm : tryMatchUrl (c :: rest) with
      | some pr =>
        obtain ⟨m, r⟩ := pr
        simp [htm]
      | none =>
        cases pre with
        | nil =>
          obtain ⟨rc, rt, rfl⟩ := List.exists_cons_of_ne_nil hrun
          simp only [List.nil_append] at hs
          have hrcA : allowedChar rc = true := hall rc (List.mem_cons_self _ _)
          rcases hsch with rfl | rfl
          · have hs' : c :: rest = lit "http://" ++ (rc :: (rt ++ post)) := by
              simpa [List.append_assoc] using hs
            exact absurd (hs' ▸ htm) (tryMatchUrl_some_http rc rt post hrcA)
          · have hs' : c :: rest = lit "https://" ++ (rc :: (rt ++ post)) := by
              simpa [List.append_assoc] using hs
            exact absurd (hs' ▸ htm) (tryMatchUrl_some_https rc rt post hrcA)
        | cons p0 pre' =>
          simp only [List.cons_append] at hs
          injection hs with h1 h2
          simp only [htm]
          apply ih rest (by simpa using Nat.succ_le_succ_iff.mp hlen)
          exact ⟨pre', scheme, run, post, h2, hsch, hrun, hall⟩

theorem hasUrl_of_findallAux_ne_nil :
    ∀ (fuel : Nat) (s : List Char), findallAux fuel s ≠ [] → hasUrlIn s := by
  intro fuel
  induction fuel with
  | zero => intro s h; simp [findallAux] at h
  | succ n ih =>
    intro s h
    cases s with
    | nil => simp [findallAux] at h
    | cons c rest =>
      rw [findallAux] at h
      cases htm : tryMatchUrl (c :: rest) with
      | some pr =>
        obtain ⟨m, r⟩ := pr
        obtain ⟨hs, run, hm, hrun, hall⟩ := tryMatchUrl_eq _ _ _ htm
        rcases hm with hm | hm
        · exact ⟨[], lit "http://", run, r, by rw [hs, hm]; simp, Or.inl rfl, hrun, hall⟩
        · exact ⟨[], lit "https://", run, r, by rw [hs, hm]; simp, Or.inr rfl, hrun, hall⟩
      | none =>
        simp only [htm] at h
        obtain ⟨pre, scheme, run, post, hseq, hsch, hrun, hall⟩ := ih rest h
        exact ⟨c :: pre, scheme, run, post, by simp [hseq], hsch, hrun, hall⟩

theorem findallAux_shape :
    ∀ (fuel : Nat) (s : List Char), ∀ u ∈ findallAux fuel s,
      (∃ run, (u = lit "http://" ++ run ∨ u = lit "https://" ++ run) ∧ run ≠ [] ∧
        ∀ ch ∈ run, allowedChar ch = true) ∧
      ∃ pre post, s = pre ++ u ++ post := by
  intro fuel
  induction fuel with
  | zero => intro s u hu; simp [findallAux] at hu
  | succ n ih =>
    intro s u hu
    cases s with
    | nil => simp [findallAux] at hu
    | cons c rest =>
      rw [findallAux] at hu
      cases htm : tryMatchUrl (c :: rest) with
      | some pr =>
        obtain ⟨m, r⟩ := pr
        simp only [htm] at hu
        obtain ⟨hs, run, hm, hrun, hall⟩ := tryMatchUrl_eq _ _ _ htm
        rcases List.mem_cons.mp hu with rfl | hu
        · exact ⟨⟨run, hm, hrun, hall⟩, [], r, by simpa using hs⟩
        · obtain ⟨hshape, pre, post, hdec⟩ := ih r u hu
          exact ⟨hshape, m ++ pre, post, by rw [hs, hdec]; simp [List.append_assoc]⟩
      | none =>
        simp only [htm] at hu
        obtain ⟨hshape, pre, post, hdec⟩ := ih rest u hu
        exact ⟨hshape, c :: pre, post, by simp [hdec]⟩

theorem extract_urls_sentinel_iff (text : String) :
    extract_urls text = "No URLs found in the text." ↔ findallUrls text.data = [] := by
  by_cases hnil : findallUrls text.data = []
  · unfold extract_urls
    rw [if_pos hnil]
    simp [hnil]
  · unfold extract_urls
    rw [if_neg hnil]
    constructor
    · intro h
      exfalso
      have hdata := congrArg String.data h
      cases hurls : findallUrls text.data with
      | nil => exact hnil hurls
      | cons u0 urest =>
        have hmem : u0 ∈ findallUrls text.data := by
          rw [hurls]; exact List.mem_cons_self _ _
        obtain ⟨⟨run, hsch, -, -⟩, -⟩ := findallAux_shape _ _ u0 hmem
        obtain ⟨z, hz⟩ := intercalate_head_shape (lit "\n") u0 urest
        rw [hurls, hz] at hdata
        rcases hsch with rfl | rfl <;>
          · rw [List.append_assoc] at hdata
            injection hdata with h1 _
            exact absurd h1 (by decide)
    · intro h
      exact absurd h hnil

/-- C4 counterexample: at the input `"ftp://x"` the claim's two sides
    disagree — the text contains a `scheme://`-plus-body substring in the
    spec grammar's sense (scheme `ftp`), yet `extract_urls` returns the
    no-URLs sentinel, because the source regex only matches the schemes
    `http` and `https`. -/
theorem c4_claim_counterexample :
    ¬ (extract_urls "ftp://x" = "No URLs found in the text." ↔
        specHasUrl "ftp://x" = false) := by
  decide

/-- C4 (amended): `extract_urls` returns the sentinel iff the text has no
    substring of the form `http://` or `https://` followed by at least one
    character that is not whitespace and none of `)`, `]`, `"`, `'`, `>`;
    otherwise it returns the newline-join of the left-to-right maximal
    matches, each of which has exactly that form and occurs in the text. -/
theorem c4_extract_urls_characterization (text : String) :
    (extract_urls text = "No URLs found in the text." ↔ ¬ hasUrlIn text.data) ∧
    (hasUrlIn text.data →
      (extract_urls text).data = List.intercalate (lit "\n") (findallUrls text.data) ∧
      ∀ u ∈ findallUrls text.data,
        (∃ run, (u = lit "http://" ++ run ∨ u = lit "https://" ++ run) ∧ run ≠ [] ∧
          ∀ ch ∈ run, allowedChar ch = true) ∧
        ∃ pre post, text.data = pre ++ u ++ post) := by
  have hiff : hasUrlIn text.data ↔ findallUrls text.data ≠ [] :=
    ⟨fun h => findallAux_ne_nil_of_hasUrl _ _ (Nat.le_refl _) h,
     fun h => hasUrl_of_findallAux_ne_nil _ _ h⟩
  constructor
  · rw [extract_urls_sentinel_iff, hiff]
    tauto
  · intro h
    have hne := hiff.mp h
    constructor
    · unfold extract_urls
      rw [if_neg hne]
    · intro u hu
      exact findallAux_shape _ _ u hu

/-- C4 witness: on a text with two URLs the amended characterization
    instantiates to the concrete newline-join. -/
theorem c4_extract_urls_characterization_witness :
    (extract_urls "a https://x and http://y").data =
      List.intercalate (lit "\n") (findallUrls (lit "a https://x and http://y")) := by
  have hurl : hasUrlIn ("a https://x and http://y").data :=
    ⟨lit "a ", lit "https://", lit "x", lit " and http://y", by decide, Or.inr rfl,
      by decide, by decide⟩
  exact ((c4_extract_urls_characterization "a https://x and http://y").2 hurl).1

/- ------------------------------------------------------------------ -/
/- Claims C1, C3, C6, C7, C8, C9, C10                                 -/
/- ------------------------------------------------------------------ -/

/-- C1 (code-bug evaluation): on an input mixing a malformed URL with a
    well-formed one whose network check succeeds with status 200,
    `validate_urls` pairs the malformed URL's text with the well-formed
    URL's verdict ("VALID: bad - Status 200") and the well-formed URL
    appears in no output line: the `zip(url_list, check_results)` of
    line 91 pairs the unfiltered input list against the results of the
    tasked (parseable) URLs only. -/
theorem c1_validate_urls_mispairing :
    validate_urls (fun _ => CheckOutcome.valid 200) "bad\nhttps://example.com" =
      "INVALID: bad - Malformed URL\nVALID: bad - Status 200" ∧
    containsSub (lit "example.com")
      (validate_urls (fun _ => CheckOutcome.valid 200) "bad\nhttps://example.com").data =
      false := by
  decide

/-- C3 (code-bug evaluation): in a run whose stream continues past the
    Manager's APPROVE message with one more QuestionAnswerer message, the
    returned final_answer is that later message "A2", not the most recent
    QuestionAnswerer message as of the approval point ("A1"); the
    approval-scan branch of lines 353-358 can never fire, because it looks
    for the uppercase literal "APPROVE" inside the lowercased message
    text. -/
theorem c3_final_answer_not_frozen_at_approval :
    (ask_question [] "Q"
      [(some "QuestionAnswererAgent", "A1"), (some "ManagerAgent", "APPROVE"),
        (some "QuestionAnswererAgent", "A2")] none).final_answer = "A2" ∧
    lastQA [⟨"QuestionAnswererAgent", "A1"⟩, ⟨"ManagerAgent", "APPROVE"⟩] = some "A1" ∧
    ∀ s : String, containsSub (lit "APPROVE") (lowerL s.data) = false :=
  ⟨by decide, by decide, fun s => approve_not_in_lower s.data⟩

/-- C6: when an exception with text `e` escapes the turn loop,
    `ask_question` returns exactly one synthetic "System" log entry
    carrying the error text, an error-flagged final answer, and leaves the
    exchange history unchanged, whatever had already been streamed. -/
theorem c6_exception_containment (history : List Exchange) (question : String)
    (stream : List (Option String × String)) (e : String) :
    ask_question history question stream (some e) =
      ⟨[⟨"System", "Error: " ++ e⟩], "Error occurred: " ++ e, history⟩ := rfl

theorem runChat_length_le (select : List LogEntry → String)
    (respond : String → List LogEntry → String) (gate : LogEntry → Bool) :
    ∀ (fuel : Nat) (log : List LogEntry),
      (runChat select respond gate fuel log).length ≤ log.length + fuel := by
  intro fuel
  induction fuel with
  | zero => intro log; simp [runChat]
  | succ n ih =>
    intro log
    rw [runChat]
    split
    · simp
    · have h := ih (log ++ [⟨select log, respond (select log) log⟩])
      simp only [List.length_append, List.length_cons, List.length_nil] at h ⊢
      omega

/-- C7 (spec-modelled orchestration loop): however the selection oracle,
    the agents and the termination gate behave — in particular when the
    gate never fires — an invocation of the chat appends at most 10
    messages, the configured `maximum_iterations`; exhausting the budget
    ends the run. -/
theorem c7_iteration_cap (select : List LogEntry → String)
    (respond : String → List LogEntry → String) (gate : LogEntry → Bool)
    (init : List LogEntry) :
    (invokeChat select respond gate init).length ≤ init.length + 10 :=
  runChat_length_le select respond gate 10 init

/-- The HEAD outcomes that make `_check_url` fall back to a full GET:
    a ClientError, or a response with status 404, 405 or 403. -/
def escalates : HeadOutcome → Prop
  | .resp r => r.status = 404 ∨ r.status = 405 ∨ r.status = 403
  | .clientError => True

/-- C8: whenever the check escalates to a full GET whose response has a
    2xx/3xx status and an HTML content type, and the body matches the
    soft-error-page bank, the result is a failure with the synthesized
    status 404 and the soft-404 message, despite the transport-level
    success. -/
theorem c8_soft404_downgrade (head : HeadOutcome) (get : HttpResponse)
    (hesc : escalates head) (h200 : 200 ≤ get.status) (h400 : get.status < 400)
    (hhtml : containsSub (lit "text/html") (lowerL get.contentType.data) = true)
    (hpat : anyErrorPattern get.body.data = true) :
    checkUrl head get = ⟨false, some 404, some soft404msg, none⟩ := by
  have hget : checkUrlGet get = ⟨false, some 404, some soft404msg, none⟩ := by
    unfold checkUrlGet
    rw [if_pos ⟨h200, h400⟩, if_pos ⟨hhtml, hpat⟩]
  cases head with
  | clientError => simpa [checkUrl] using hget
  | resp r =>
    simp only [checkUrl]
    rcases hesc with h | h | h <;>
      · rw [if_neg (by omega), if_pos (by tauto)]
        exact hget

/-- C8 witness: a concrete escalated GET — 200, HTML, a `<title>` carrying
    "404 not found" — is downgraded to the synthesized 404 failure. -/
theorem c8_soft404_downgrade_witness :
    (escalates HeadOutcome.clientError ∧ 200 ≤ 200 ∧ (200 : Nat) < 400 ∧
      containsSub (lit "text/html") (lowerL ("text/html" : String).data) = true ∧
      anyErrorPattern ("<title>404 not found</title>" : String).data = true) ∧
    checkUrl HeadOutcome.clientError
      ⟨200, "text/html", "<title>404 not found</title>", "http://u"⟩ =
      ⟨false, some 404, some soft404msg, none⟩ :=
  ⟨⟨trivial, by decide, by decide, by decide, by decide⟩,
    c8_soft404_downgrade HeadOutcome.clientError
      ⟨200, "text/html", "<title>404 not found</title>", "http://u"⟩
      trivial (by decide) (by decide) (by decide) (by decide)⟩

theorem updateHistory_length_le (h : List Exchange) (q a : String) :
    (updateHistory h q a).length ≤ 5 := by
  unfold updateHistory
  split
  next hgt =>
    simp only [List.length_drop, List.length_append, List.length_cons,
      List.length_nil] at *
    omega
  next hle =>
    simp only [List.length_append, List.length_cons, List.length_nil] at *
    omega

theorem drop_append_le {α : Type} : ∀ (n : Nat) (l1 l2 : List α), n ≤ l1.length →
    (l1 ++ l2).drop n = l1.drop n ++ l2 := by
  intro n
  induction n with
  | zero => intro l1 l2 h; simp
  | succ k ih =>
    intro l1 l2 h
    cases l1 with
    | nil => simp at h
    | cons x xs =>
      simp only [List.cons_append, List.drop_succ_cons]
      exact ih xs l2 (by simpa using h)

theorem updateHistory_getLast (h : List Exchange) (q a : String) :
    (updateHistory h q a).getLast? = some ⟨q, a⟩ := by
  unfold updateHistory
  split
  next hgt =>
    have hn : (h ++ [(⟨q, a⟩ : Exchange)]).length - 5 ≤ h.length := by
      simp only [List.length_append, List.length_cons, List.length_nil]
      omega
    rw [drop_append_le _ _ _ hn, List.getLast?_concat]
  next => exact List.getLast?_concat _

/-- C9: the exchange history is bounded at 5 with oldest-first eviction —
    every successful `ask_question` call leaves at most 5 entries, and six
    successful exchanges starting from an empty history leave exactly the
    five most recent {question, answer} pairs in order. -/
theorem c9_history_bound :
    (∀ (h : List Exchange) (q : String) (s : List (Option String × String)),
      (ask_question h q s none).history.length ≤ 5) ∧
    (∀ (q1 q2 q3 q4 q5 q6 : String) (s1 s2 s3 s4 s5 s6 : List (Option String × String)),
      (ask_question (ask_question (ask_question (ask_question (ask_question
        (ask_question [] q1 s1 none).history q2 s2 none).history q3 s3 none).history
        q4 s4 none).history q5 s5 none).history q6 s6 none).history =
      [⟨q2, finalAnswerOf s2⟩, ⟨q3, finalAnswerOf s3⟩, ⟨q4, finalAnswerOf s4⟩,
        ⟨q5, finalAnswerOf s5⟩, ⟨q6, finalAnswerOf s6⟩]) := by
  constructor
  · intro h q s
    exact updateHistory_length_le h q _
  · intro q1 q2 q3 q4 q5 q6 s1 s2 s3 s4 s5 s6
    rfl

theorem foldl_no_qa (msgs : List LogEntry) :
    ∀ st : List LogEntry × String,
      (∀ m ∈ msgs, (m.agent == "QuestionAnswererAgent") = false) →
      (∀ m ∈ st.1, (m.agent == "QuestionAnswererAgent") = false) →
      (msgs.foldl processTurn st).2 = st.2 ∧
      ∀ m ∈ (msgs.foldl processTurn st).1,
        (m.agent == "QuestionAnswererAgent") = false := by
  induction msgs with
  | nil => intro st h1 h2; exact ⟨rfl, h2⟩
  | cons m ms ih =>
    intro st h1 h2
    have hm : (m.agent == "QuestionAnswererAgent") = false := h1 m (List.mem_cons_self _ _)
    have hne : ¬ m.agent = "QuestionAnswererAgent" := by simpa using hm
    have hpt : processTurn st m = (st.1 ++ [m], st.2) := by
      unfold processTurn
      rw [if_neg, if_neg hne]
      intro hcon
      have := approve_not_in_lower m.content.data
      rw [this] at hcon
      exact Bool.false_ne_true hcon.2
    have hlog : ∀ x ∈ st.1 ++ [m], (x.agent == "QuestionAnswererAgent") = false := by
      intro x hx
      rcases List.mem_append.mp hx with hx | hx
      · exact h2 x hx
      · simp only [List.mem_singleton] at hx
        subst hx
        exact hm
    have hrec := ih (st.1 ++ [m], st.2)
      (fun x hx => h1 x (List.mem_cons_of_mem _ hx)) hlog
    simp only [List.foldl_cons, hpt]
    exact hrec

/-- C10: every exception-free run appends the {question, final_answer}
    exchange to the bounded history — the returned history is exactly
    `updateHistory` of the old one with that pair, whose last entry it is
    — including runs with no approval at all; and when the stream contains
    no QuestionAnswerer message the recorded final answer is the empty
    string. -/
theorem c10_exchange_recorded (h : List Exchange) (q : String)
    (s : List (Option String × String)) :
    (ask_question h q s none).history =
      updateHistory h q (ask_question h q s none).final_answer ∧
    (ask_question h q s none).history.getLast? =
      some ⟨q, (ask_question h q s none).final_answer⟩ ∧
    ((keepNamed s).all (fun m => m.agent != "QuestionAnswererAgent") = true →
      (ask_question h q s none).final_answer = "") := by
  refine ⟨rfl, updateHistory_getLast h q _, ?_⟩
  intro hno
  have hall : ∀ m ∈ keepNamed s, (m.agent == "QuestionAnswererAgent") = false := by
    intro m hm
    have := List.all_eq_true.mp hno m hm
    simpa using this
  have hst : ∀ m ∈ (([], "") : List LogEntry × String).1,
      (m.agent == "QuestionAnswererAgent") = false := by
    intro m hm
    simp at hm
  exact (foldl_no_qa (keepNamed s) ([], "") hall hst).1

/-- C10 witness: a stream with only a Manager message records the empty
    string as the final answer. -/
theorem c10_exchange_recorded_witness :
    (ask_question [] "q0" [(some "ManagerAgent", "reject")] none).final_answer = "" :=
  (c10_exchange_recorded [] "q0" [(some "ManagerAgent", "reject")]).2.2 (by decide)
